import Mathlib

/-!
# STM32F4xx internal ADC driver (`flight/PiOS/STM32F4xx/pios_internal_adc.c`)

A shallow embedding of the averaging part of the driver: the device descriptor
and its magic check, the buffer plan computed by `PIOS_INTERNAL_ADC_Allocate`,
the per-channel accumulator array, the interrupt-side reducer `accumulate` and
the foreground read `PIOS_INTERNAL_ADC_PinGet`, together with the capability
queries.

Conventions.  `uint32_t`/`uint16_t`/`uint8_t` values are natural numbers and
every C operation that can leave the range is followed by an explicit
`% 2 ^ w`.  A pointer to a device descriptor is an `Option`: `none` is `NULL`,
`some d` is a pointer to memory holding `d` (whatever its magic is).  The
accumulator array and a sample buffer are functions from the element index to
the element stored there.
-/

set_option autoImplicit false

namespace PiosInternalAdc

/-! ## Data model -/

/-- The enumerator `PIOS_INTERNAL_ADC_DEV_MAGIC` of `enum pios_adc_dev_magic`. -/
def PIOS_INTERNAL_ADC_DEV_MAGIC : Nat := 0x58375124

/-- The fields of `struct pios_internal_adc_cfg` the averaging code reads: the address of
the master converter and the number of configured pins. -/
structure pios_internal_adc_cfg where
  adc_dev_master : Nat
  adc_pin_count : Nat
  deriving DecidableEq, Repr

/-- The `struct pios_internal_adc_dev` descriptor.  `callback_function` is the address of
the registered callback (`0` for `NULL`).  The fields the driver never touches
(`valid_data_buffer`, `adc_oversample`, `dma_block_size`, `dma_half_buffer_size`) are left
out. -/
structure pios_internal_adc_dev where
  cfg : pios_internal_adc_cfg
  callback_function : Nat
  max_samples : Nat
  magic : Nat
  deriving DecidableEq, Repr

/-- One record of `struct adc_accumulator`: running sum and sample count, both `uint32_t`. -/
structure adc_accumulator where
  accumulator : Nat
  count : Nat
  deriving DecidableEq, Repr

/-- The static variables of the module: the device pointer `pios_adc_dev` and the array
the pointer `accumulator` refers to. -/
structure adc_state where
  pios_adc_dev : Option pios_internal_adc_dev
  accumulator : Nat → adc_accumulator

/-- The all-zero accumulator array. -/
def accumulator_zero : Nat → adc_accumulator := fun _ => { accumulator := 0, count := 0 }

/-- Conversion of a `uint32_t` value to `int32_t` (two's complement). -/
def int32_of_uint32 (n : Nat) : Int :=
  if n % 2 ^ 32 < 2 ^ 31 then ((n % 2 ^ 32 : Nat) : Int) else ((n % 2 ^ 32 : Nat) : Int) - 2 ^ 32

/-- Conversion of an `int32_t` value to `uint32_t`. -/
def uint32_of_int32 (z : Int) : Nat := (z % 2 ^ 32).toNat

/-! ## Validation and allocation -/

/-- `PIOS_INTERNAL_ADC_validate`: a non-null pointer whose target carries the magic. -/
def PIOS_INTERNAL_ADC_validate (dev : Option pios_internal_adc_dev) : Bool :=
  match dev with
  | none => false
  | some d => d.magic == PIOS_INTERNAL_ADC_DEV_MAGIC

/-- The value stored into the `uint16_t` field `max_samples` by
`PIOS_INTERNAL_ADC_Allocate`.  `ADC2` is the address of the second converter and
`PIOS_ADC_MAX_OVERSAMPLING` the board's oversampling ceiling; both come from headers and are
parameters here. -/
def max_samples_plan (ADC2 PIOS_ADC_MAX_OVERSAMPLING : Nat) (cfg : pios_internal_adc_cfg) : Nat :=
  let use_adc_2 : Nat := if cfg.adc_dev_master = ADC2 then 1 else 0
  ((((cfg.adc_pin_count + use_adc_2) >>> use_adc_2) <<< use_adc_2)
    * PIOS_ADC_MAX_OVERSAMPLING * 2) % 2 ^ 16

/-- `PIOS_INTERNAL_ADC_Allocate`.  `m_dev` is the result of the first `PIOS_malloc` (`none`
for `NULL`, otherwise the contents of the fresh block); `m_acc`, `m_buf0`, `m_buf1` say
whether the allocations of the accumulator array and of the two raw buffers succeed. -/
def PIOS_INTERNAL_ADC_Allocate (ADC2 PIOS_ADC_MAX_OVERSAMPLING : Nat)
    (cfg : pios_internal_adc_cfg) (m_dev : Option pios_internal_adc_dev)
    (m_acc m_buf0 m_buf1 : Bool) : Option pios_internal_adc_dev :=
  match m_dev with
  | none => none
  | some adc_dev =>
    let adc_dev := { adc_dev with
      max_samples := max_samples_plan ADC2 PIOS_ADC_MAX_OVERSAMPLING cfg }
    if !m_acc then none
    else if !m_buf0 then none
    else if !m_buf1 then none
    else some { adc_dev with magic := PIOS_INTERNAL_ADC_DEV_MAGIC }

/-! ## Readout -/

/-- `PIOS_INTERNAL_ADC_PinGet`: the returned `int32_t` and the module state afterwards.
The handle `internal_adc_id` is ignored, as in the source; the module's own device pointer
is validated instead. -/
def PIOS_INTERNAL_ADC_PinGet (st : adc_state) (_internal_adc_id : Option pios_internal_adc_dev)
    (pin : Nat) : Int × adc_state :=
  if PIOS_INTERNAL_ADC_validate st.pios_adc_dev = false then (-1, st)
  else
    match st.pios_adc_dev with
    | none => (-1, st)
    | some dev =>
      if pin ≥ dev.cfg.adc_pin_count then (-2, st)
      else if (st.accumulator pin).accumulator ≤ 0 then (-3, st)
      else
        let result : Int := int32_of_uint32
          ((st.accumulator pin).accumulator /
            (if (st.accumulator pin).count ≠ 0 then (st.accumulator pin).count else 1))
        (result, { st with
          accumulator := Function.update st.accumulator pin
            { accumulator := uint32_of_int32 result, count := 1 } })

/-- `PIOS_ADC_SetCallback`: stores through `pios_adc_dev` without any check.  `none` is the
null-pointer dereference. -/
def PIOS_ADC_SetCallback (st : adc_state) (new_function : Nat) : Option adc_state :=
  match st.pios_adc_dev with
  | none => none
  | some dev => some { st with pios_adc_dev := some { dev with callback_function := new_function } }

/-! ## Accumulation -/

/-- Body of the inner `for` loop of `accumulate` for one channel: add the sample, count it,
and halve both when the sum has reached `1 << 31`. -/
def accumulate_sample (a : adc_accumulator) (sample : Nat) : adc_accumulator :=
  let sum := (a.accumulator + sample) % 2 ^ 32
  let count := (a.count + 1) % 2 ^ 32
  if sum ≥ 2 ^ 31 then { accumulator := sum / 2, count := count / 2 }
  else { accumulator := sum, count := count }

/-- Loop state of `accumulate`: the accumulator array and the read offset `sp - buffer`. -/
structure accumulate_loop_state where
  acc : Nat → adc_accumulator
  sp : Nat

/-- One iteration of the inner loop at channel `i`: `*sp++` is read as a `uint16_t`. -/
def accumulate_channel (buffer : Nat → Nat) (s : accumulate_loop_state) (i : Nat) :
    accumulate_loop_state :=
  { acc := Function.update s.acc i (accumulate_sample (s.acc i) (buffer s.sp % 2 ^ 16)),
    sp := s.sp + 1 }

/-- The inner loop `for (int i = 0; i < adc_pin_count; i++)`. -/
def accumulate_scan (adc_pin_count : Nat) (buffer : Nat → Nat) (s : accumulate_loop_state) :
    accumulate_loop_state :=
  (List.range adc_pin_count).foldl (accumulate_channel buffer) s

/-- The outer loop `while (count--)`. -/
def accumulate_cycles (adc_pin_count : Nat) (buffer : Nat → Nat) :
    Nat → accumulate_loop_state → accumulate_loop_state
  | 0, s => s
  | count + 1, s =>
    accumulate_cycles adc_pin_count buffer count (accumulate_scan adc_pin_count buffer s)

/-- `accumulate(buffer, count)`: nothing happens unless the module's device validates. -/
def accumulate (st : adc_state) (buffer : Nat → Nat) (count : Nat) : adc_state :=
  if PIOS_INTERNAL_ADC_validate st.pios_adc_dev = false then st
  else
    match st.pios_adc_dev with
    | none => st
    | some dev =>
      { st with
        accumulator :=
          (accumulate_cycles dev.cfg.adc_pin_count buffer count
            { acc := st.accumulator, sp := 0 }).acc }

/-! ## Capability queries -/

/-- `PIOS_INTERNAL_ADC_Available`. -/
def PIOS_INTERNAL_ADC_Available (internal_adc_id : Option pios_internal_adc_dev)
    (device_pin : Nat) : Bool :=
  match internal_adc_id with
  | none => false
  | some adc_dev =>
    if PIOS_INTERNAL_ADC_validate (some adc_dev) = false then false
    else !(decide (device_pin ≥ adc_dev.cfg.adc_pin_count))

/-- `PIOS_INTERNAL_ADC_Number_of_Channels`, returned as a `uint8_t`. -/
def PIOS_INTERNAL_ADC_Number_of_Channels (internal_adc_id : Option pios_internal_adc_dev) : Nat :=
  match internal_adc_id with
  | none => 0
  | some adc_dev =>
    if PIOS_INTERNAL_ADC_validate (some adc_dev) = false then 0
    else adc_dev.cfg.adc_pin_count % 2 ^ 8

/-! ## Sequences of buffer flips -/

/-- A sequence of `accumulate` calls, one per completed buffer: each pass is the buffer and
the number of scan cycles handed to `accumulate`. -/
def accumulate_passes (st : adc_state) (passes : List ((Nat → Nat) × Nat)) : adc_state :=
  passes.foldl (fun s p => accumulate s p.1 p.2) st

/-- Number of scan cycles in a sequence of passes. -/
def total_cycles (passes : List ((Nat → Nat) × Nat)) : Nat :=
  (passes.map (fun p => p.2)).sum

/-! ## Vocabulary of the claims -/

/-- The samples of channel `i` in the first `count` scan cycles of `buffer`: the words at
positions `c * adc_pin_count + i`, each read as a `uint16_t`. -/
def channel_samples (adc_pin_count : Nat) (buffer : Nat → Nat) (count i : Nat) : List Nat :=
  (List.range count).map (fun c => buffer (c * adc_pin_count + i) % 2 ^ 16)

/-- Sum of the samples of channel `i` over a sequence of passes. -/
def channel_total (adc_pin_count : Nat) (passes : List ((Nat → Nat) × Nat)) (i : Nat) : Nat :=
  (passes.map (fun p => (channel_samples adc_pin_count p.1 p.2 i).sum)).sum

/-- Saturation invariant of the accumulator array: every sum is below `2 ^ 31`, half the
range of a `uint32_t`. -/
def sums_below_half (acc : Nat → adc_accumulator) : Prop :=
  ∀ i, (acc i).accumulator < 2 ^ 31

/-- The module states the driver can be in: initialisation of a validated device with
all-zero accumulators, followed by any sequence of `accumulate`, `PIOS_INTERNAL_ADC_PinGet`
and `PIOS_ADC_SetCallback` calls. -/
inductive Reachable : adc_state → Prop
  | init (dev : pios_internal_adc_dev) :
      PIOS_INTERNAL_ADC_validate (some dev) = true →
      Reachable { pios_adc_dev := some dev, accumulator := accumulator_zero }
  | accumulate (st : adc_state) (buffer : Nat → Nat) (count : Nat) :
      Reachable st → count < 2 ^ 32 → Reachable (accumulate st buffer count)
  | PinGet (st : adc_state) (id : Option pios_internal_adc_dev) (pin : Nat) :
      Reachable st → pin < 2 ^ 32 → Reachable (PIOS_INTERNAL_ADC_PinGet st id pin).2
  | SetCallback (st st1 : adc_state) (new_function : Nat) :
      Reachable st → PIOS_ADC_SetCallback st new_function = some st1 → Reachable st1

/-- Exact running average `sum / count` of an accumulator record, as a rational. -/
def average (a : adc_accumulator) : ℚ := (a.accumulator : ℚ) / (a.count : ℚ)

/-! ## Test data -/

/-- Sample buffer holding the words of `l`, zero beyond. -/
def buffer_of (l : List Nat) : Nat → Nat := fun k => l.getD k 0

/-- A two-channel configuration on the first converter. -/
def cfg2 : pios_internal_adc_cfg := { adc_dev_master := 0x40012000, adc_pin_count := 2 }

/-- A validated two-channel device. -/
def dev2 : pios_internal_adc_dev :=
  { cfg := cfg2, callback_function := 0, max_samples := 8, magic := PIOS_INTERNAL_ADC_DEV_MAGIC }

/-- Module state right after initialisation of `dev2`. -/
def st2 : adc_state := { pios_adc_dev := some dev2, accumulator := accumulator_zero }

/-- State of `st2` after two buffer flips holding the scan cycles `[100, 200]` and
`[300, 400]`. -/
def st2_loaded : adc_state :=
  accumulate (accumulate st2 (buffer_of [100, 200]) 1) (buffer_of [300, 400]) 1

/-- State of `st2` after one buffer of two scan cycles `[1, 5]`, `[0, 5]`. -/
def st2_low : adc_state := accumulate st2 (buffer_of [1, 5, 0, 5]) 2

/-- A descriptor whose magic field does not hold `PIOS_INTERNAL_ADC_DEV_MAGIC`. -/
def dev_stale : pios_internal_adc_dev :=
  { cfg := cfg2, callback_function := 0, max_samples := 8, magic := 0 }

/-- Module state whose device pointer refers to a descriptor without the magic, with
samples left in the accumulators. -/
def st_stale : adc_state :=
  { pios_adc_dev := some dev_stale, accumulator := st2_loaded.accumulator }

/-- The two buffer flips `[100, 200]` and `[300, 400]` of the two-channel device. -/
def passes_loaded : List ((Nat → Nat) × Nat) :=
  [(buffer_of [100, 200], 1), (buffer_of [300, 400], 1)]

/-- Two buffer flips `[1, 5]` and `[0, 5]` of the two-channel device. -/
def passes_low : List ((Nat → Nat) × Nat) :=
  [(buffer_of [1, 5], 1), (buffer_of [0, 5], 1)]

/-- A one-channel configuration on the first converter. -/
def cfg1 : pios_internal_adc_cfg := { adc_dev_master := 0x40012000, adc_pin_count := 1 }

/-- A validated one-channel device. -/
def dev1 : pios_internal_adc_dev :=
  { cfg := cfg1, callback_function := 0, max_samples := 4, magic := PIOS_INTERNAL_ADC_DEV_MAGIC }

/-- Module state right after initialisation of the one-channel device `dev1`. -/
def st1 : adc_state := { pios_adc_dev := some dev1, accumulator := accumulator_zero }

/-- Buffer whose first word is 5 and whose other words are 0. -/
def buffer_five : Nat → Nat := fun k => if k = 0 then 5 else 0

/-- A three-channel configuration whose master converter is at `0x40012100`. -/
def cfg3 : pios_internal_adc_cfg := { adc_dev_master := 0x40012100, adc_pin_count := 3 }

/-- Buffer in which every word is the largest 16-bit sample. -/
def buffer_full_scale : Nat → Nat := fun _ => 65535

/-! ## Integer conversions -/

theorem int32_of_uint32_small (n : Nat) (h : n < 2 ^ 31) : int32_of_uint32 n = (n : Int) := by
  have h32 : n % 2 ^ 32 = n := Nat.mod_eq_of_lt (by omega)
  simp only [int32_of_uint32, h32, if_pos h]

theorem uint32_of_int32_natCast (n : Nat) (h : n < 2 ^ 32) : uint32_of_int32 (n : Int) = n := by
  unfold uint32_of_int32
  have : ((n : Int) % 2 ^ 32) = (n : Int) := Int.emod_eq_of_lt (by omega) (by exact_mod_cast h)
  rw [this]
  simp

/-! ## Readout: the four return paths -/

theorem PinGet_not_ready (st : adc_state) (id : Option pios_internal_adc_dev) (pin : Nat)
    (h : PIOS_INTERNAL_ADC_validate st.pios_adc_dev = false) :
    PIOS_INTERNAL_ADC_PinGet st id pin = (-1, st) := by
  simp [PIOS_INTERNAL_ADC_PinGet, h]

theorem PinGet_invalid_channel (st : adc_state) (dev : pios_internal_adc_dev)
    (id : Option pios_internal_adc_dev) (pin : Nat)
    (hdev : st.pios_adc_dev = some dev) (hv : PIOS_INTERNAL_ADC_validate (some dev) = true)
    (hpin : dev.cfg.adc_pin_count ≤ pin) :
    PIOS_INTERNAL_ADC_PinGet st id pin = (-2, st) := by
  simp [PIOS_INTERNAL_ADC_PinGet, hdev, hv, hpin]

theorem PinGet_no_data (st : adc_state) (dev : pios_internal_adc_dev)
    (id : Option pios_internal_adc_dev) (pin : Nat)
    (hdev : st.pios_adc_dev = some dev) (hv : PIOS_INTERNAL_ADC_validate (some dev) = true)
    (hpin : pin < dev.cfg.adc_pin_count) (h0 : (st.accumulator pin).accumulator = 0) :
    PIOS_INTERNAL_ADC_PinGet st id pin = (-3, st) := by
  simp [PIOS_INTERNAL_ADC_PinGet, hdev, hv, hpin, h0]

theorem PinGet_average (st : adc_state) (dev : pios_internal_adc_dev)
    (id : Option pios_internal_adc_dev) (pin : Nat)
    (hdev : st.pios_adc_dev = some dev) (hv : PIOS_INTERNAL_ADC_validate (some dev) = true)
    (hpin : pin < dev.cfg.adc_pin_count)
    (hpos : 0 < (st.accumulator pin).accumulator) (hlt : (st.accumulator pin).accumulator < 2 ^ 31) :
    PIOS_INTERNAL_ADC_PinGet st id pin =
      ((((st.accumulator pin).accumulator / max (st.accumulator pin).count 1 : Nat) : Int),
        { st with
          accumulator := Function.update st.accumulator pin
            { accumulator := (st.accumulator pin).accumulator / max (st.accumulator pin).count 1,
              count := 1 } }) := by
  have hmax : (if (st.accumulator pin).count ≠ 0 then (st.accumulator pin).count else 1)
      = max (st.accumulator pin).count 1 := by
    split_ifs with hc
    · omega
    · simp only [not_not] at hc; simp [hc]
  have hq : (st.accumulator pin).accumulator / max (st.accumulator pin).count 1 < 2 ^ 31 :=
    lt_of_le_of_lt (Nat.div_le_self _ _) hlt
  have hq32 : (st.accumulator pin).accumulator / max (st.accumulator pin).count 1 < 2 ^ 32 := by
    omega
  have hpin2 : ¬ pin ≥ dev.cfg.adc_pin_count := by omega
  have hne : ¬ (st.accumulator pin).accumulator ≤ 0 := by omega
  simp only [PIOS_INTERNAL_ADC_PinGet, hdev, hv, hmax, int32_of_uint32_small _ hq,
    uint32_of_int32_natCast _ hq32, if_neg hpin2, if_neg hne]
  rfl

/-! ## Accumulation: one addition -/

theorem accumulate_sample_lt (a : adc_accumulator) (x : Nat) :
    (accumulate_sample a x).accumulator < 2 ^ 31 := by
  unfold accumulate_sample
  simp only []
  split_ifs with h
  · show (a.accumulator + x) % 2 ^ 32 / 2 < 2 ^ 31
    omega
  · show (a.accumulator + x) % 2 ^ 32 < 2 ^ 31
    omega

theorem accumulate_sample_exact (a : adc_accumulator) (x : Nat)
    (h : a.accumulator + x < 2 ^ 31) :
    accumulate_sample a x =
      { accumulator := a.accumulator + x, count := (a.count + 1) % 2 ^ 32 } := by
  have hmod : (a.accumulator + x) % 2 ^ 32 = a.accumulator + x := Nat.mod_eq_of_lt (by omega)
  have hno : ¬ (a.accumulator + x ≥ 2 ^ 31) := by omega
  simp only [accumulate_sample, hmod, if_neg hno]

theorem accumulate_sample_rescale (a : adc_accumulator) (x : Nat)
    (h : 2 ^ 31 ≤ (a.accumulator + x) % 2 ^ 32) :
    accumulate_sample a x =
      { accumulator := (a.accumulator + x) % 2 ^ 32 / 2,
        count := (a.count + 1) % 2 ^ 32 / 2 } := by
  have hyes : (a.accumulator + x) % 2 ^ 32 ≥ 2 ^ 31 := h
  simp only [accumulate_sample, if_pos hyes]

/-! ## Accumulation: the inner loop -/

theorem accumulate_scan_succ (n : Nat) (buffer : Nat → Nat) (s : accumulate_loop_state) :
    accumulate_scan (n + 1) buffer s
      = accumulate_channel buffer (accumulate_scan n buffer s) n := by
  simp [accumulate_scan, List.range_succ, List.foldl_append]

theorem accumulate_scan_sp (n : Nat) (buffer : Nat → Nat) (s : accumulate_loop_state) :
    (accumulate_scan n buffer s).sp = s.sp + n := by
  induction n with
  | zero => simp [accumulate_scan]
  | succ n ih =>
    rw [accumulate_scan_succ]
    simp only [accumulate_channel, ih]
    omega

theorem accumulate_scan_acc_ge (n : Nat) (buffer : Nat → Nat) (s : accumulate_loop_state)
    (j : Nat) (h : n ≤ j) : (accumulate_scan n buffer s).acc j = s.acc j := by
  induction n with
  | zero => simp [accumulate_scan]
  | succ n ih =>
    rw [accumulate_scan_succ]
    have hne : j ≠ n := by omega
    simp only [accumulate_channel, Function.update_noteq hne]
    exact ih (by omega)

theorem accumulate_scan_acc_lt (n : Nat) (buffer : Nat → Nat) (s : accumulate_loop_state)
    (j : Nat) (h : j < n) :
    (accumulate_scan n buffer s).acc j
      = accumulate_sample (s.acc j) (buffer (s.sp + j) % 2 ^ 16) := by
  induction n with
  | zero => omega
  | succ n ih =>
    rw [accumulate_scan_succ]
    by_cases hj : j = n
    · subst hj
      simp only [accumulate_channel, Function.update_same, accumulate_scan_sp,
        accumulate_scan_acc_ge j buffer s j le_rfl]
    · simp only [accumulate_channel, Function.update_noteq hj]
      exact ih (by omega)

/-! ## Accumulation: the outer loop -/

theorem accumulate_cycles_add (C : Nat) (buffer : Nat → Nat) (m n : Nat)
    (s : accumulate_loop_state) :
    accumulate_cycles C buffer (m + n) s
      = accumulate_cycles C buffer n (accumulate_cycles C buffer m s) := by
  induction m generalizing s with
  | zero => simp [accumulate_cycles]
  | succ m ih =>
    have : m + 1 + n = (m + n) + 1 := by omega
    rw [this]
    simp only [accumulate_cycles]
    exact ih _

theorem accumulate_cycles_sp (C : Nat) (buffer : Nat → Nat) (count : Nat)
    (s : accumulate_loop_state) :
    (accumulate_cycles C buffer count s).sp = s.sp + count * C := by
  induction count generalizing s with
  | zero => simp [accumulate_cycles]
  | succ n ih =>
    simp only [accumulate_cycles]
    rw [ih, accumulate_scan_sp]
    ring

theorem accumulate_cycles_acc_ge (C : Nat) (buffer : Nat → Nat) (count : Nat)
    (s : accumulate_loop_state) (j : Nat) (h : C ≤ j) :
    (accumulate_cycles C buffer count s).acc j = s.acc j := by
  induction count generalizing s with
  | zero => simp [accumulate_cycles]
  | succ n ih =>
    simp only [accumulate_cycles]
    rw [ih, accumulate_scan_acc_ge C buffer s j h]

theorem accumulate_cycles_acc_lt (C : Nat) (buffer : Nat → Nat) (count : Nat)
    (s : accumulate_loop_state) (i : Nat) (h : i < C) :
    (accumulate_cycles C buffer count s).acc i
      = ((List.range count).map (fun c => buffer (s.sp + c * C + i) % 2 ^ 16)).foldl
          accumulate_sample (s.acc i) := by
  induction count generalizing s with
  | zero => simp [accumulate_cycles]
  | succ n ih =>
    simp only [accumulate_cycles]
    rw [ih, accumulate_scan_acc_lt C buffer s i h, accumulate_scan_sp, List.range_succ_eq_map]
    simp only [List.map_cons, List.map_map, List.foldl_cons, Nat.zero_mul, Nat.add_zero]
    congr 2
    funext c
    simp only [Function.comp, Nat.succ_eq_add_one]
    congr 2
    ring

theorem accumulate_cycles_channel (C : Nat) (buffer : Nat → Nat) (count : Nat)
    (acc : Nat → adc_accumulator) (i : Nat) (h : i < C) :
    (accumulate_cycles C buffer count { acc := acc, sp := 0 }).acc i
      = (channel_samples C buffer count i).foldl accumulate_sample (acc i) := by
  rw [accumulate_cycles_acc_lt C buffer count _ i h]
  simp [channel_samples]

theorem channel_samples_lt (C : Nat) (buffer : Nat → Nat) (count i : Nat) :
    ∀ x ∈ channel_samples C buffer count i, x < 2 ^ 16 := by
  intro x hx
  simp only [channel_samples, List.mem_map] at hx
  obtain ⟨c, _, rfl⟩ := hx
  exact Nat.mod_lt _ (by norm_num)

theorem channel_samples_length (C : Nat) (buffer : Nat → Nat) (count i : Nat) :
    (channel_samples C buffer count i).length = count := by
  simp [channel_samples]

/-! ## Folding samples into one accumulator -/

theorem foldl_accumulate_sample_lt (l : List Nat) (a : adc_accumulator)
    (ha : a.accumulator < 2 ^ 31) :
    (l.foldl accumulate_sample a).accumulator < 2 ^ 31 := by
  induction l generalizing a with
  | nil => simpa using ha
  | cons x l ih =>
    simp only [List.foldl_cons]
    exact ih _ (accumulate_sample_lt a x)

theorem foldl_accumulate_sample_exact (l : List Nat) (a : adc_accumulator)
    (hc : a.count < 2 ^ 32) (h : a.accumulator + l.sum < 2 ^ 31) :
    l.foldl accumulate_sample a
      = { accumulator := a.accumulator + l.sum, count := (a.count + l.length) % 2 ^ 32 } := by
  induction l generalizing a with
  | nil =>
    simp only [List.foldl_nil, List.sum_nil, List.length_nil, Nat.add_zero,
      Nat.mod_eq_of_lt hc]
  | cons x l ih =>
    simp only [List.sum_cons] at h
    simp only [List.foldl_cons, List.sum_cons, List.length_cons]
    rw [accumulate_sample_exact a x (by omega),
      ih _ (Nat.mod_lt _ (by norm_num)) (by simp only []; omega)]
    simp only [adc_accumulator.mk.injEq]
    constructor
    · omega
    · omega

/-! ## The saturation invariant -/

theorem sums_below_half_zero : sums_below_half accumulator_zero := by
  intro i
  simp [accumulator_zero]

theorem accumulate_scan_sums_below_half (n : Nat) (buffer : Nat → Nat)
    (s : accumulate_loop_state) (h : sums_below_half s.acc) :
    sums_below_half (accumulate_scan n buffer s).acc := by
  intro j
  by_cases hj : j < n
  · rw [accumulate_scan_acc_lt n buffer s j hj]
    exact accumulate_sample_lt _ _
  · rw [accumulate_scan_acc_ge n buffer s j (by omega)]
    exact h j

theorem accumulate_cycles_sums_below_half (C : Nat) (buffer : Nat → Nat) (count : Nat)
    (s : accumulate_loop_state) (h : sums_below_half s.acc) :
    sums_below_half (accumulate_cycles C buffer count s).acc := by
  intro j
  by_cases hj : j < C
  · rw [accumulate_cycles_acc_lt C buffer count s j hj]
    exact foldl_accumulate_sample_lt _ _ (h j)
  · rw [accumulate_cycles_acc_ge C buffer count s j (by omega)]
    exact h j

theorem accumulate_sums_below_half (st : adc_state) (buffer : Nat → Nat) (count : Nat)
    (h : sums_below_half st.accumulator) :
    sums_below_half (accumulate st buffer count).accumulator := by
  unfold accumulate
  split_ifs with hv
  · exact h
  · cases hdev : st.pios_adc_dev with
    | none => simpa [hdev] using h
    | some dev =>
      simp only [hdev]
      exact accumulate_cycles_sums_below_half _ _ _ _ h

theorem accumulate_pios_adc_dev (st : adc_state) (buffer : Nat → Nat) (count : Nat) :
    (accumulate st buffer count).pios_adc_dev = st.pios_adc_dev := by
  unfold accumulate
  split_ifs with hv
  · rfl
  · cases hdev : st.pios_adc_dev with
    | none => simp [hdev]
    | some dev => simp [hdev]

theorem PinGet_pios_adc_dev (st : adc_state) (id : Option pios_internal_adc_dev) (pin : Nat) :
    (PIOS_INTERNAL_ADC_PinGet st id pin).2.pios_adc_dev = st.pios_adc_dev := by
  obtain ⟨d, acc⟩ := st
  cases d with
  | none => rfl
  | some dev =>
    simp only [PIOS_INTERNAL_ADC_PinGet]
    split_ifs <;> rfl

theorem PinGet_sums_below_half (st : adc_state) (id : Option pios_internal_adc_dev) (pin : Nat)
    (h : sums_below_half st.accumulator) :
    sums_below_half (PIOS_INTERNAL_ADC_PinGet st id pin).2.accumulator := by
  by_cases hv : PIOS_INTERNAL_ADC_validate st.pios_adc_dev = false
  · rw [PinGet_not_ready st id pin hv]
    exact h
  · cases hdev : st.pios_adc_dev with
    | none => simp [hdev, PIOS_INTERNAL_ADC_validate] at hv
    | some dev =>
      have hv1 : PIOS_INTERNAL_ADC_validate (some dev) = true := by
        rw [hdev] at hv
        simpa using hv
      by_cases hpin : pin < dev.cfg.adc_pin_count
      · by_cases h0 : (st.accumulator pin).accumulator = 0
        · rw [PinGet_no_data st dev id pin hdev hv1 hpin h0]
          exact h
        · rw [PinGet_average st dev id pin hdev hv1 hpin (by omega) (h pin)]
          intro j
          by_cases hj : j = pin
          · subst hj
            simp only [Function.update_same]
            exact lt_of_le_of_lt (Nat.div_le_self _ _) (h j)
          · simp only [Function.update_noteq hj]
            exact h j
      · rw [PinGet_invalid_channel st dev id pin hdev hv1 (by omega)]
        exact h

theorem Reachable_valid (st : adc_state) (h : Reachable st) :
    PIOS_INTERNAL_ADC_validate st.pios_adc_dev = true := by
  induction h with
  | init dev hv => exact hv
  | accumulate st buffer count _ _ ih => rw [accumulate_pios_adc_dev]; exact ih
  | PinGet st id pin _ _ ih => rw [PinGet_pios_adc_dev]; exact ih
  | SetCallback st st1 f _ hset ih =>
    unfold PIOS_ADC_SetCallback at hset
    cases hdev : st.pios_adc_dev with
    | none => simp [hdev] at hset
    | some dev =>
      simp only [hdev, Option.some.injEq] at hset
      subst hset
      rw [hdev] at ih
      simpa [PIOS_INTERNAL_ADC_validate] using ih

theorem Reachable_sums_below_half (st : adc_state) (h : Reachable st) :
    sums_below_half st.accumulator := by
  induction h with
  | init dev _ => exact sums_below_half_zero
  | accumulate st buffer count _ _ ih => exact accumulate_sums_below_half st buffer count ih
  | PinGet st id pin _ _ ih => exact PinGet_sums_below_half st id pin ih
  | SetCallback st st1 f _ hset ih =>
    unfold PIOS_ADC_SetCallback at hset
    cases hdev : st.pios_adc_dev with
    | none => simp [hdev] at hset
    | some dev =>
      simp only [hdev, Option.some.injEq] at hset
      subst hset
      exact ih

/-! ## Claims about the readout -/

/-- C1. On a valid device, for a pin below `adc_pin_count` whose accumulated sum is non-zero
and below `2 ^ 31`, `PIOS_INTERNAL_ADC_PinGet` returns `sum / max count 1`, leaves
`(average, 1)` in the accumulator of that pin, and changes neither the accumulator of any
other channel nor the device pointer. -/
theorem C1_PinGet_returns_average_and_reseeds (st : adc_state) (dev : pios_internal_adc_dev)
    (id : Option pios_internal_adc_dev) (pin : Nat)
    (hdev : st.pios_adc_dev = some dev)
    (hvalid : PIOS_INTERNAL_ADC_validate (some dev) = true)
    (hpin : pin < dev.cfg.adc_pin_count)
    (hpos : 0 < (st.accumulator pin).accumulator)
    (hlt : (st.accumulator pin).accumulator < 2 ^ 31) :
    (PIOS_INTERNAL_ADC_PinGet st id pin).1
        = (((st.accumulator pin).accumulator / max (st.accumulator pin).count 1 : Nat) : Int)
      ∧ (PIOS_INTERNAL_ADC_PinGet st id pin).2.accumulator pin
        = { accumulator := (st.accumulator pin).accumulator / max (st.accumulator pin).count 1,
            count := 1 }
      ∧ (∀ j, j ≠ pin →
          (PIOS_INTERNAL_ADC_PinGet st id pin).2.accumulator j = st.accumulator j)
      ∧ (PIOS_INTERNAL_ADC_PinGet st id pin).2.pios_adc_dev = st.pios_adc_dev := by
  rw [PinGet_average st dev id pin hdev hvalid hpin hpos hlt]
  refine ⟨rfl, ?_, ?_, rfl⟩
  · simp only [Function.update_same]
  · intro j hj
    simp only [Function.update_noteq hj]

theorem st2_loaded_acc0 : st2_loaded.accumulator 0 = { accumulator := 400, count := 2 } := by
  decide

theorem st2_loaded_acc1 : st2_loaded.accumulator 1 = { accumulator := 600, count := 2 } := by
  decide

theorem st2_loaded_dev : st2_loaded.pios_adc_dev = some dev2 := by
  decide

theorem C1_PinGet_returns_average_and_reseeds_witness :
    st2_loaded.pios_adc_dev = some dev2
      ∧ PIOS_INTERNAL_ADC_validate (some dev2) = true
      ∧ 0 < dev2.cfg.adc_pin_count
      ∧ 0 < (st2_loaded.accumulator 0).accumulator
      ∧ (st2_loaded.accumulator 0).accumulator < 2 ^ 31
      ∧ (PIOS_INTERNAL_ADC_PinGet st2_loaded none 0).1 = 200
      ∧ (PIOS_INTERNAL_ADC_PinGet st2_loaded none 0).2.accumulator 0
          = { accumulator := 200, count := 1 }
      ∧ (∀ j, j ≠ 0 →
          (PIOS_INTERNAL_ADC_PinGet st2_loaded none 0).2.accumulator j
            = st2_loaded.accumulator j) :=
  have h := C1_PinGet_returns_average_and_reseeds st2_loaded dev2 none 0
    (by decide) (by decide) (by decide) (by decide) (by decide)
  ⟨by decide, by decide, by decide, by decide, by decide, h.1, h.2.1, h.2.2.1⟩

theorem Reachable_st2 : Reachable st2 := Reachable.init dev2 (by decide)

theorem Reachable_st2_loaded : Reachable st2_loaded :=
  Reachable.accumulate _ _ _ (Reachable.accumulate _ _ _ Reachable_st2 (by decide)) (by decide)

/-- C5. Evaluation of `PIOS_INTERNAL_ADC_PinGet` where its doc comment promises `-1` and
`-2`: on the validated two-channel device a pin that does not exist (`pin = 2`) yields `-2`,
and an existing pin with nothing accumulated yields `-3`; `-1` is what an invalid device
yields. -/
theorem C5_PinGet_codes_differ_from_doc_comment :
    PIOS_INTERNAL_ADC_validate st2.pios_adc_dev = true
      ∧ dev2.cfg.adc_pin_count = 2
      ∧ (PIOS_INTERNAL_ADC_PinGet st2 none 2).1 = -2
      ∧ (PIOS_INTERNAL_ADC_PinGet st2 none 2).1 ≠ -1
      ∧ (st2.accumulator 0).accumulator = 0
      ∧ (PIOS_INTERNAL_ADC_PinGet st2 none 0).1 = -3
      ∧ (PIOS_INTERNAL_ADC_PinGet st2 none 0).1 ≠ -2 := by
  decide

/-- C6. Evaluation of a read, one further scan cycle and a second read on channel 0 of the
two-channel device: the first read returns 200, the only sample accumulated afterwards is
400, and the second read returns (200 + 400) / 2 = 300, not 400 / 1: the reseeded average
is counted as one more sample. -/
theorem C6_second_read_includes_previous_average :
    (PIOS_INTERNAL_ADC_PinGet st2_loaded none 0).1 = 200
      ∧ channel_samples 2 (buffer_of [400, 0]) 1 0 = [400]
      ∧ (accumulate (PIOS_INTERNAL_ADC_PinGet st2_loaded none 0).2
            (buffer_of [400, 0]) 1).accumulator 0 = { accumulator := 600, count := 2 }
      ∧ (PIOS_INTERNAL_ADC_PinGet
            (accumulate (PIOS_INTERNAL_ADC_PinGet st2_loaded none 0).2 (buffer_of [400, 0]) 1)
            none 0).1 = 300 := by
  decide

/-! ## Claims about handle validation -/

theorem accumulate_not_ready (st : adc_state) (buffer : Nat → Nat) (count : Nat)
    (h : PIOS_INTERNAL_ADC_validate st.pios_adc_dev = false) :
    accumulate st buffer count = st := by
  simp [accumulate, h]

theorem Available_invalid (handle : Option pios_internal_adc_dev) (device_pin : Nat)
    (h : PIOS_INTERNAL_ADC_validate handle = false) :
    PIOS_INTERNAL_ADC_Available handle device_pin = false := by
  cases handle with
  | none => rfl
  | some d => simp [PIOS_INTERNAL_ADC_Available, h]

theorem Number_of_Channels_invalid (handle : Option pios_internal_adc_dev)
    (h : PIOS_INTERNAL_ADC_validate handle = false) :
    PIOS_INTERNAL_ADC_Number_of_Channels handle = 0 := by
  cases handle with
  | none => rfl
  | some d => simp [PIOS_INTERNAL_ADC_Number_of_Channels, h]

/-- C7, as the code has it.  `PIOS_INTERNAL_ADC_PinGet` and `accumulate` validate the
device of the module, `pios_adc_dev`, and `PIOS_INTERNAL_ADC_PinGet` ignores the handle it is
given: when `pios_adc_dev` is null or lacks the magic, `PIOS_INTERNAL_ADC_PinGet` returns
`-1` for every handle and pin and `accumulate` does nothing, the module state, descriptor
and accumulators included, staying as it was.  `PIOS_INTERNAL_ADC_Number_of_Channels` and
`PIOS_INTERNAL_ADC_Available` validate the handle they are given and answer `0` and `false`
for one that is null or lacks the magic, whatever the descriptor holds otherwise. -/
theorem C7_invalid_device_or_handle (st : adc_state) (handle : Option pios_internal_adc_dev)
    (hmodule : PIOS_INTERNAL_ADC_validate st.pios_adc_dev = false)
    (hhandle : PIOS_INTERNAL_ADC_validate handle = false) :
    (∀ (id : Option pios_internal_adc_dev) (pin : Nat),
        PIOS_INTERNAL_ADC_PinGet st id pin = (-1, st))
      ∧ (∀ (buffer : Nat → Nat) (count : Nat), accumulate st buffer count = st)
      ∧ PIOS_INTERNAL_ADC_Number_of_Channels handle = 0
      ∧ (∀ device_pin : Nat, PIOS_INTERNAL_ADC_Available handle device_pin = false) :=
  ⟨fun id pin => PinGet_not_ready st id pin hmodule,
   fun buffer count => accumulate_not_ready st buffer count hmodule,
   Number_of_Channels_invalid handle hhandle,
   fun device_pin => Available_invalid handle device_pin hhandle⟩

theorem C7_invalid_device_or_handle_witness :
    PIOS_INTERNAL_ADC_validate st_stale.pios_adc_dev = false
      ∧ PIOS_INTERNAL_ADC_validate (some dev_stale) = false
      ∧ (∀ (id : Option pios_internal_adc_dev) (pin : Nat),
          PIOS_INTERNAL_ADC_PinGet st_stale id pin = (-1, st_stale))
      ∧ (∀ (buffer : Nat → Nat) (count : Nat), accumulate st_stale buffer count = st_stale)
      ∧ PIOS_INTERNAL_ADC_Number_of_Channels (some dev_stale) = 0
      ∧ (∀ device_pin : Nat,
          PIOS_INTERNAL_ADC_Available (some dev_stale) device_pin = false) :=
  ⟨by decide, by decide,
    C7_invalid_device_or_handle st_stale (some dev_stale) (by decide) (by decide)⟩

/-- C7 as stated fails for `PIOS_INTERNAL_ADC_PinGet`: called with a null handle, and with a
handle lacking the magic, while the device of the module is valid, it does not return `-1`
but the average 200, and it rewrites the accumulator of the pin. -/
theorem C7_PinGet_ignores_its_handle :
    PIOS_INTERNAL_ADC_validate none = false
      ∧ PIOS_INTERNAL_ADC_validate (some dev_stale) = false
      ∧ (PIOS_INTERNAL_ADC_PinGet st2_loaded none 0).1 = 200
      ∧ (PIOS_INTERNAL_ADC_PinGet st2_loaded (some dev_stale) 0).1 = 200
      ∧ (PIOS_INTERNAL_ADC_PinGet st2_loaded none 0).2.accumulator 0
          ≠ st2_loaded.accumulator 0 := by
  decide

/-- `PIOS_ADC_SetCallback` performs no validation: on a descriptor without the magic it
still stores the callback, and on a null device pointer it dereferences the pointer. -/
theorem SetCallback_is_unchecked :
    PIOS_INTERNAL_ADC_validate st_stale.pios_adc_dev = false
      ∧ (PIOS_ADC_SetCallback st_stale 7).map (fun s => s.pios_adc_dev)
          = some (some { dev_stale with callback_function := 7 })
      ∧ (PIOS_ADC_SetCallback { pios_adc_dev := none, accumulator := accumulator_zero } 7).isNone
          = true := by
  decide

/-! ## Claims about repeated reads -/

/-- C3, as the code has it.  In every state reachable from all-zero accumulators on a valid
device, for a pin in range whose integer average `sum / max count 1` is at least 1, two
consecutive `PIOS_INTERNAL_ADC_PinGet` calls on that pin, with nothing in between, both
return that average, and the second does not return the no-data code `-3`. -/
theorem C3_repeated_read_of_nonzero_average (st : adc_state) (dev : pios_internal_adc_dev)
    (id : Option pios_internal_adc_dev) (pin : Nat)
    (hreach : Reachable st) (hdev : st.pios_adc_dev = some dev)
    (hpin : pin < dev.cfg.adc_pin_count)
    (havg : 1 ≤ (st.accumulator pin).accumulator / max (st.accumulator pin).count 1) :
    (PIOS_INTERNAL_ADC_PinGet st id pin).1
        = (((st.accumulator pin).accumulator / max (st.accumulator pin).count 1 : Nat) : Int)
      ∧ (PIOS_INTERNAL_ADC_PinGet (PIOS_INTERNAL_ADC_PinGet st id pin).2 id pin).1
        = (PIOS_INTERNAL_ADC_PinGet st id pin).1
      ∧ (PIOS_INTERNAL_ADC_PinGet (PIOS_INTERNAL_ADC_PinGet st id pin).2 id pin).1 ≠ -3 := by
  have hv : PIOS_INTERNAL_ADC_validate (some dev) = true := by
    rw [← hdev]
    exact Reachable_valid st hreach
  have hlt := Reachable_sums_below_half st hreach pin
  have hpos : 0 < (st.accumulator pin).accumulator := by
    by_contra h0
    have hz : (st.accumulator pin).accumulator = 0 := by omega
    rw [hz, Nat.zero_div] at havg
    omega
  have h1 := PinGet_average st dev id pin hdev hv hpin hpos hlt
  have hq : (st.accumulator pin).accumulator / max (st.accumulator pin).count 1 < 2 ^ 31 :=
    lt_of_le_of_lt (Nat.div_le_self _ _) hlt
  have h2 := PinGet_average (PIOS_INTERNAL_ADC_PinGet st id pin).2 dev id pin
    (by rw [PinGet_pios_adc_dev, hdev]) hv hpin
    (by rw [h1]; simp only [Function.update_same]; omega)
    (by rw [h1]; simp only [Function.update_same]; exact hq)
  have h3 : (PIOS_INTERNAL_ADC_PinGet (PIOS_INTERNAL_ADC_PinGet st id pin).2 id pin).1
      = (((st.accumulator pin).accumulator / max (st.accumulator pin).count 1 : Nat) : Int) := by
    rw [h2, h1]
    simp only [Function.update_same]
    simp
  refine ⟨by rw [h1], ?_, ?_⟩
  · rw [h3, h1]
  · rw [h3]
    omega

theorem C3_repeated_read_of_nonzero_average_witness :
    Reachable st2_loaded ∧ st2_loaded.pios_adc_dev = some dev2
      ∧ 0 < dev2.cfg.adc_pin_count
      ∧ 1 ≤ (st2_loaded.accumulator 0).accumulator / max (st2_loaded.accumulator 0).count 1
      ∧ (PIOS_INTERNAL_ADC_PinGet st2_loaded none 0).1 = 200
      ∧ (PIOS_INTERNAL_ADC_PinGet (PIOS_INTERNAL_ADC_PinGet st2_loaded none 0).2 none 0).1
          = (PIOS_INTERNAL_ADC_PinGet st2_loaded none 0).1
      ∧ (PIOS_INTERNAL_ADC_PinGet (PIOS_INTERNAL_ADC_PinGet st2_loaded none 0).2 none 0).1
          ≠ -3 :=
  have h := C3_repeated_read_of_nonzero_average st2_loaded dev2 none 0
    Reachable_st2_loaded (by decide) (by decide) (by decide)
  ⟨Reachable_st2_loaded, by decide, by decide, by decide, h.1, h.2.1, h.2.2⟩

/-- C3 as stated fails: after one buffer with the scan cycles `[1, 5]` and `[0, 5]` channel 0
of the two-channel device holds two samples (sum 1, count 2); the first read returns the
average 0 and the second read, with nothing in between, returns the no-data code `-3`. -/
theorem C3_zero_average_is_not_reread :
    Reachable st2_low
      ∧ PIOS_INTERNAL_ADC_validate st2_low.pios_adc_dev = true
      ∧ channel_samples 2 (buffer_of [1, 5, 0, 5]) 2 0 = [1, 0]
      ∧ st2_low.accumulator 0 = { accumulator := 1, count := 2 }
      ∧ (PIOS_INTERNAL_ADC_PinGet st2_low none 0).1 = 0
      ∧ (PIOS_INTERNAL_ADC_PinGet (PIOS_INTERNAL_ADC_PinGet st2_low none 0).2 none 0).1 = -3 :=
  ⟨Reachable.accumulate _ _ _ Reachable_st2 (by decide), by decide, by decide, by decide,
    by decide, by decide⟩

/-! ## Claims about accumulation followed by a read -/

theorem accumulate_valid_channel (st : adc_state) (dev : pios_internal_adc_dev)
    (buffer : Nat → Nat) (count i : Nat)
    (hdev : st.pios_adc_dev = some dev) (hv : PIOS_INTERNAL_ADC_validate (some dev) = true)
    (hi : i < dev.cfg.adc_pin_count) :
    (accumulate st buffer count).accumulator i
      = (channel_samples dev.cfg.adc_pin_count buffer count i).foldl accumulate_sample
          (st.accumulator i) := by
  simp only [accumulate, hdev, hv]
  exact accumulate_cycles_channel _ buffer count st.accumulator i hi

theorem accumulate_passes_pios_adc_dev (passes : List ((Nat → Nat) × Nat)) (st : adc_state) :
    (accumulate_passes st passes).pios_adc_dev = st.pios_adc_dev := by
  induction passes generalizing st with
  | nil => rfl
  | cons p passes ih =>
    simp only [accumulate_passes, List.foldl_cons] at ih ⊢
    rw [ih, accumulate_pios_adc_dev]

/-- Without saturation a sequence of passes adds the samples of the channel to its sum and
the number of cycles, modulo `2 ^ 32`, to its count. -/
theorem accumulate_passes_exact (dev : pios_internal_adc_dev)
    (passes : List ((Nat → Nat) × Nat)) (st : adc_state) (i : Nat)
    (hdev : st.pios_adc_dev = some dev) (hv : PIOS_INTERNAL_ADC_validate (some dev) = true)
    (hi : i < dev.cfg.adc_pin_count) (hc : (st.accumulator i).count < 2 ^ 32)
    (hsum : (st.accumulator i).accumulator + channel_total dev.cfg.adc_pin_count passes i
      < 2 ^ 31) :
    (accumulate_passes st passes).accumulator i
      = { accumulator :=
            (st.accumulator i).accumulator + channel_total dev.cfg.adc_pin_count passes i,
          count := ((st.accumulator i).count + total_cycles passes) % 2 ^ 32 } := by
  induction passes generalizing st with
  | nil =>
    simp only [accumulate_passes, List.foldl_nil, channel_total, total_cycles, List.map_nil,
      List.sum_nil, Nat.add_zero, Nat.mod_eq_of_lt hc]
  | cons p passes ih =>
    simp only [channel_total, List.map_cons, List.sum_cons] at hsum
    have hstep := accumulate_valid_channel st dev p.1 p.2 i hdev hv hi
    rw [foldl_accumulate_sample_exact _ _ hc (by omega)] at hstep
    have hnext := ih (accumulate st p.1 p.2)
      (by rw [accumulate_pios_adc_dev, hdev])
      (by rw [hstep]; exact Nat.mod_lt _ (by norm_num))
      (by rw [hstep]; simp only [channel_total]; omega)
    simp only [accumulate_passes, List.foldl_cons] at hnext ⊢
    rw [hnext, hstep]
    simp only [channel_total, total_cycles, List.map_cons, List.sum_cons,
      channel_samples_length, adc_accumulator.mk.injEq]
    constructor
    · omega
    · omega

/-- C2, as the code has it.  From all-zero accumulators on a valid device, after passes
totalling `n` scan cycles with `1 <= n < 2 ^ 32`, in which the samples of channel `i` (the
words at positions `c * adc_pin_count + i`) sum to a non-zero total below `2 ^ 31`,
`PIOS_INTERNAL_ADC_PinGet` on `i` returns `total / n`; an immediately repeated read returns
the same value when that average is non-zero (`n <= total`), and the no-data code `-3`
when it is zero. -/
theorem C2_accumulate_then_read (dev : pios_internal_adc_dev)
    (id : Option pios_internal_adc_dev) (passes : List ((Nat → Nat) × Nat)) (i : Nat)
    (hvalid : PIOS_INTERNAL_ADC_validate (some dev) = true)
    (hi : i < dev.cfg.adc_pin_count)
    (hn1 : 1 ≤ total_cycles passes) (hn32 : total_cycles passes < 2 ^ 32)
    (hpos : 0 < channel_total dev.cfg.adc_pin_count passes i)
    (hlt : channel_total dev.cfg.adc_pin_count passes i < 2 ^ 31) :
    (PIOS_INTERNAL_ADC_PinGet
        (accumulate_passes { pios_adc_dev := some dev, accumulator := accumulator_zero } passes)
        id i).1
        = ((channel_total dev.cfg.adc_pin_count passes i / total_cycles passes : Nat) : Int)
      ∧ (total_cycles passes ≤ channel_total dev.cfg.adc_pin_count passes i →
          (PIOS_INTERNAL_ADC_PinGet
            (PIOS_INTERNAL_ADC_PinGet
              (accumulate_passes
                { pios_adc_dev := some dev, accumulator := accumulator_zero } passes)
              id i).2 id i).1
          = ((channel_total dev.cfg.adc_pin_count passes i / total_cycles passes : Nat) : Int))
      ∧ (channel_total dev.cfg.adc_pin_count passes i < total_cycles passes →
          (PIOS_INTERNAL_ADC_PinGet
            (PIOS_INTERNAL_ADC_PinGet
              (accumulate_passes
                { pios_adc_dev := some dev, accumulator := accumulator_zero } passes)
              id i).2 id i).1 = -3) := by
  have hacc := accumulate_passes_exact dev passes
    { pios_adc_dev := some dev, accumulator := accumulator_zero } i rfl hvalid hi
    (by simp [accumulator_zero]) (by simpa [accumulator_zero] using hlt)
  simp only [accumulator_zero, Nat.zero_add, Nat.mod_eq_of_lt hn32] at hacc
  have hdev : (accumulate_passes
      { pios_adc_dev := some dev, accumulator := accumulator_zero } passes).pios_adc_dev
      = some dev := by
    rw [accumulate_passes_pios_adc_dev]
  have hmax : max (total_cycles passes) 1 = total_cycles passes := by omega
  have h1 := PinGet_average _ dev id i hdev hvalid hi (by rw [hacc]; exact hpos)
    (by rw [hacc]; exact hlt)
  simp only [accumulator_zero, hacc, hmax] at h1
  have hdev1 : (PIOS_INTERNAL_ADC_PinGet
      (accumulate_passes { pios_adc_dev := some dev, accumulator := accumulator_zero } passes)
      id i).2.pios_adc_dev = some dev := by
    rw [PinGet_pios_adc_dev, hdev]
  have hacc1 : (PIOS_INTERNAL_ADC_PinGet
      (accumulate_passes { pios_adc_dev := some dev, accumulator := accumulator_zero } passes)
      id i).2.accumulator i
      = { accumulator := channel_total dev.cfg.adc_pin_count passes i / total_cycles passes,
          count := 1 } := by
    rw [h1]
    simp only [Function.update_same]
  refine ⟨?_, ?_, ?_⟩
  · rw [h1]
  · intro hge
    have hq1 : 1 ≤ channel_total dev.cfg.adc_pin_count passes i / total_cycles passes :=
      (Nat.one_le_div_iff (by omega)).mpr hge
    have hq2 : channel_total dev.cfg.adc_pin_count passes i / total_cycles passes < 2 ^ 31 :=
      lt_of_le_of_lt (Nat.div_le_self _ _) hlt
    have h2 := PinGet_average _ dev id i hdev1 hvalid hi (by rw [hacc1]; exact hq1)
      (by rw [hacc1]; exact hq2)
    rw [h2, hacc1]
    simp
  · intro hsmall
    have hq0 : channel_total dev.cfg.adc_pin_count passes i / total_cycles passes = 0 :=
      Nat.div_eq_of_lt hsmall
    rw [PinGet_no_data _ dev id i hdev1 hvalid hi (by rw [hacc1]; exact hq0)]

theorem C2_accumulate_then_read_witness :
    PIOS_INTERNAL_ADC_validate (some dev2) = true
      ∧ 0 < dev2.cfg.adc_pin_count
      ∧ 1 ≤ total_cycles passes_loaded ∧ total_cycles passes_loaded < 2 ^ 32
      ∧ 0 < channel_total dev2.cfg.adc_pin_count passes_loaded 0
      ∧ channel_total dev2.cfg.adc_pin_count passes_loaded 0 < 2 ^ 31
      ∧ total_cycles passes_loaded ≤ channel_total dev2.cfg.adc_pin_count passes_loaded 0
      ∧ (PIOS_INTERNAL_ADC_PinGet
          (accumulate_passes { pios_adc_dev := some dev2, accumulator := accumulator_zero }
            passes_loaded) none 0).1 = 200
      ∧ (PIOS_INTERNAL_ADC_PinGet
          (PIOS_INTERNAL_ADC_PinGet
            (accumulate_passes { pios_adc_dev := some dev2, accumulator := accumulator_zero }
              passes_loaded) none 0).2 none 0).1 = 200 :=
  have h := C2_accumulate_then_read dev2 none passes_loaded 0
    (by decide) (by decide) (by decide) (by decide) (by decide) (by decide)
  ⟨by decide, by decide, by decide, by decide, by decide, by decide, by decide,
    h.1, h.2.1 (by decide)⟩

/-- C2 as stated fails on the repeated read: from all-zero accumulators the two passes
`[1, 5]` and `[0, 5]` give channel 0 two cycles with total 1; the read returns
`1 / 2 = 0`, and the immediately repeated read returns `-3`, not 0. -/
theorem C2_repeated_read_of_zero_average :
    total_cycles passes_low = 2
      ∧ channel_total dev2.cfg.adc_pin_count passes_low 0 = 1
      ∧ (PIOS_INTERNAL_ADC_PinGet
          (accumulate_passes { pios_adc_dev := some dev2, accumulator := accumulator_zero }
            passes_low) none 0).1 = 0
      ∧ (PIOS_INTERNAL_ADC_PinGet
          (PIOS_INTERNAL_ADC_PinGet
            (accumulate_passes { pios_adc_dev := some dev2, accumulator := accumulator_zero }
              passes_low) none 0).2 none 0).1 = -3 := by
  decide

/-! ## The 32-bit sample count -/

theorem channel_samples_succ (C : Nat) (buffer : Nat → Nat) (count i : Nat) :
    channel_samples C buffer (count + 1) i
      = channel_samples C buffer count i ++ [buffer (count * C + i) % 2 ^ 16] := by
  simp [channel_samples, List.range_succ]

theorem channel_samples_sum_const_zero (C count i : Nat) :
    (channel_samples C (fun _ => 0) count i).sum = 0 := by
  induction count with
  | zero => simp [channel_samples]
  | succ n ih => rw [channel_samples_succ, List.sum_append, ih]; simp

theorem channel_samples_sum_buffer_five (n : Nat) :
    (channel_samples 1 buffer_five (n + 1) 0).sum = 5 := by
  induction n with
  | zero => decide
  | succ n ih => rw [channel_samples_succ, List.sum_append, ih]; simp [buffer_five]

/-- The bound `n < 2 ^ 32` in C2 is needed: two passes of `2 ^ 31` cycles each, in which the
only non-zero sample of the channel is a 5, leave the count at `2 ^ 32 % 2 ^ 32 = 0`, and the
read returns `5 / 1 = 5` although `5 / 2 ^ 32 = 0`. -/
theorem count_wraps_after_two_pow_32_cycles :
    total_cycles [(buffer_five, 2 ^ 31), (fun _ => 0, 2 ^ 31)] = 2 ^ 32
      ∧ channel_total 1 [(buffer_five, 2 ^ 31), (fun _ => 0, 2 ^ 31)] 0 = 5
      ∧ (accumulate_passes { pios_adc_dev := some dev1, accumulator := accumulator_zero }
          [(buffer_five, 2 ^ 31), (fun _ => 0, 2 ^ 31)]).accumulator 0
          = { accumulator := 5, count := 0 }
      ∧ (PIOS_INTERNAL_ADC_PinGet
          (accumulate_passes { pios_adc_dev := some dev1, accumulator := accumulator_zero }
            [(buffer_five, 2 ^ 31), (fun _ => 0, 2 ^ 31)]) none 0).1 = 5
      ∧ 5 / 2 ^ 32 = 0 := by
  have hcyc : total_cycles [(buffer_five, 2 ^ 31), (fun _ => 0, 2 ^ 31)] = 2 ^ 32 := by
    simp [total_cycles]
  have hfive : (channel_samples 1 buffer_five (2 ^ 31) 0).sum = 5 := by
    have h := channel_samples_sum_buffer_five 2147483647
    norm_num at h ⊢
    exact h
  have htot : channel_total 1 [(buffer_five, 2 ^ 31), (fun _ => 0, 2 ^ 31)] 0 = 5 := by
    simp only [channel_total, List.map_cons, List.map_nil, List.sum_cons, List.sum_nil, hfive,
      channel_samples_sum_const_zero, Nat.add_zero]
  have hv : PIOS_INTERNAL_ADC_validate (some dev1) = true := by decide
  have hacc := accumulate_passes_exact dev1 [(buffer_five, 2 ^ 31), (fun _ => 0, 2 ^ 31)]
    { pios_adc_dev := some dev1, accumulator := accumulator_zero } 0 rfl hv (by decide)
    (by simp [accumulator_zero])
    (by
      have h5 : channel_total dev1.cfg.adc_pin_count
          [(buffer_five, 2 ^ 31), (fun _ => 0, 2 ^ 31)] 0 = 5 := htot
      rw [h5]
      simp [accumulator_zero])
  have hacc2 : (accumulate_passes { pios_adc_dev := some dev1, accumulator := accumulator_zero }
      [(buffer_five, 2 ^ 31), (fun _ => 0, 2 ^ 31)]).accumulator 0
      = { accumulator := 5, count := 0 } := by
    rw [hacc]
    have h5 : channel_total dev1.cfg.adc_pin_count
        [(buffer_five, 2 ^ 31), (fun _ => 0, 2 ^ 31)] 0 = 5 := htot
    rw [h5, hcyc]
    simp [accumulator_zero]
  refine ⟨hcyc, htot, hacc2, ?_, by norm_num⟩
  rw [PinGet_average _ dev1 none 0 (by rw [accumulate_passes_pios_adc_dev]) hv (by decide)
    (by rw [hacc2]; norm_num) (by rw [hacc2]; norm_num), hacc2]
  simp

/-! ## The saturation invariant of the accumulators -/

theorem accumulate_cycles_succ (C : Nat) (buffer : Nat → Nat) (c : Nat)
    (s : accumulate_loop_state) :
    accumulate_cycles C buffer (c + 1) s
      = accumulate_scan C buffer (accumulate_cycles C buffer c s) := by
  rw [accumulate_cycles_add]
  simp [accumulate_cycles]

/-- C8. The predicate "every sum is below `2 ^ 31`" holds for all-zero accumulators and is
preserved by `accumulate` (any buffer, any cycle count), by `PIOS_INTERNAL_ADC_PinGet` and
by `PIOS_ADC_SetCallback`.  Moreover, from a state satisfying it, when the loops of
`accumulate` stand at scan cycle `c` and channel `i` (after `c` full cycles and the first
`i` channels of the next one) the read offset is `c * adc_pin_count + i`, the invariant
holds, the addition of the 16-bit sample to the sum of channel `i` stays below `2 ^ 32`,
so it does not wrap, the iteration replaces the record of channel `i` by
`accumulate_sample` of it (addition, then the rescale test), and after that single
iteration the sum of the channel is below `2 ^ 31` again. -/
theorem C8_saturation_invariant (st : adc_state) (buffer : Nat → Nat) (count : Nat)
    (id : Option pios_internal_adc_dev) (pin new_function C c i : Nat)
    (hinv : sums_below_half st.accumulator) :
    sums_below_half accumulator_zero
      ∧ sums_below_half (accumulate st buffer count).accumulator
      ∧ sums_below_half (PIOS_INTERNAL_ADC_PinGet st id pin).2.accumulator
      ∧ (∀ st1, PIOS_ADC_SetCallback st new_function = some st1 →
          sums_below_half st1.accumulator)
      ∧ (accumulate_scan i buffer
            (accumulate_cycles C buffer c { acc := st.accumulator, sp := 0 })).sp = c * C + i
      ∧ sums_below_half (accumulate_scan i buffer
            (accumulate_cycles C buffer c { acc := st.accumulator, sp := 0 })).acc
      ∧ ((accumulate_scan i buffer
            (accumulate_cycles C buffer c { acc := st.accumulator, sp := 0 })).acc i).accumulator
          + buffer (c * C + i) % 2 ^ 16 < 2 ^ 32
      ∧ (accumulate_scan (i + 1) buffer
            (accumulate_cycles C buffer c { acc := st.accumulator, sp := 0 })).acc i
          = accumulate_sample
              ((accumulate_scan i buffer
                (accumulate_cycles C buffer c { acc := st.accumulator, sp := 0 })).acc i)
              (buffer (c * C + i) % 2 ^ 16)
      ∧ ((accumulate_scan (i + 1) buffer
            (accumulate_cycles C buffer c { acc := st.accumulator, sp := 0 })).acc i).accumulator
          < 2 ^ 31 := by
  have hcyc := accumulate_cycles_sums_below_half C buffer c
    { acc := st.accumulator, sp := 0 } hinv
  have hscan := accumulate_scan_sums_below_half i buffer _ hcyc
  have hscan1 := accumulate_scan_sums_below_half (i + 1) buffer _ hcyc
  have hsp : (accumulate_scan i buffer
      (accumulate_cycles C buffer c { acc := st.accumulator, sp := 0 })).sp = c * C + i := by
    rw [accumulate_scan_sp, accumulate_cycles_sp]
    simp
  refine ⟨sums_below_half_zero, accumulate_sums_below_half st buffer count hinv,
    PinGet_sums_below_half st id pin hinv, ?_, hsp, hscan, ?_, ?_, hscan1 i⟩
  · intro st1 hset
    unfold PIOS_ADC_SetCallback at hset
    cases hdev : st.pios_adc_dev with
    | none => simp [hdev] at hset
    | some dev =>
      simp only [hdev, Option.some.injEq] at hset
      subst hset
      exact hinv
  · have h1 := hscan i
    have h2 : buffer (c * C + i) % 2 ^ 16 < 2 ^ 16 := Nat.mod_lt _ (by norm_num)
    omega
  · rw [accumulate_scan_succ]
    simp only [accumulate_channel, Function.update_same, hsp]

theorem C8_saturation_invariant_witness :
    sums_below_half st2_loaded.accumulator
      ∧ sums_below_half
          (accumulate st2_loaded (buffer_of [65535, 65535, 65535, 65535]) 2).accumulator
      ∧ sums_below_half (PIOS_INTERNAL_ADC_PinGet st2_loaded none 0).2.accumulator
      ∧ ((accumulate_scan 1 (buffer_of [65535, 65535, 65535, 65535])
            (accumulate_cycles 2 (buffer_of [65535, 65535, 65535, 65535]) 1
              { acc := st2_loaded.accumulator, sp := 0 })).acc 1).accumulator
          + buffer_of [65535, 65535, 65535, 65535] (1 * 2 + 1) % 2 ^ 16 < 2 ^ 32 :=
  have hinv : sums_below_half st2_loaded.accumulator :=
    Reachable_sums_below_half _ Reachable_st2_loaded
  have h := C8_saturation_invariant st2_loaded (buffer_of [65535, 65535, 65535, 65535]) 2
    none 0 0 2 1 1 hinv
  ⟨hinv, h.2.1, h.2.2.1, h.2.2.2.2.2.2.1⟩

/-! ## Claims about the buffer plan -/

/-- C10. For a channel count `C >= 1` and an oversampling ceiling `K` (the claim has
`K >= 1`; the bound is not needed) such that the product `R * K * 2` stored in the 16-bit
field fits it, where `R` is `C` when the master converter is not `ADC2` and `C` rounded up
to the next even number when it is,
`PIOS_INTERNAL_ADC_Allocate` (all allocations succeeding) returns a descriptor carrying the
magic with `max_samples = R * K * 2`; a buffer of `max_samples * C` entries then holds at
least `K` scan cycles of `C` samples and has an even number of entries. -/
theorem C10_buffer_plan (ADC2 K : Nat) (cfg : pios_internal_adc_cfg)
    (block : pios_internal_adc_dev)
    (hC : 1 ≤ cfg.adc_pin_count)
    (hfit : (if cfg.adc_dev_master = ADC2 then cfg.adc_pin_count + cfg.adc_pin_count % 2
        else cfg.adc_pin_count) * K * 2 < 2 ^ 16) :
    ∃ dev : pios_internal_adc_dev,
      PIOS_INTERNAL_ADC_Allocate ADC2 K cfg (some block) true true true = some dev
        ∧ PIOS_INTERNAL_ADC_validate (some dev) = true
        ∧ dev.max_samples
            = (if cfg.adc_dev_master = ADC2 then cfg.adc_pin_count + cfg.adc_pin_count % 2
                else cfg.adc_pin_count) * K * 2
        ∧ K * cfg.adc_pin_count ≤ dev.max_samples * cfg.adc_pin_count
        ∧ (dev.max_samples * cfg.adc_pin_count) % 2 = 0 := by
  have hplan : max_samples_plan ADC2 K cfg
      = (if cfg.adc_dev_master = ADC2 then cfg.adc_pin_count + cfg.adc_pin_count % 2
          else cfg.adc_pin_count) * K * 2 := by
    unfold max_samples_plan
    by_cases h2 : cfg.adc_dev_master = ADC2
    · simp only [h2, if_true] at hfit ⊢
      have hround : (cfg.adc_pin_count + 1) >>> 1 <<< 1
          = cfg.adc_pin_count + cfg.adc_pin_count % 2 := by
        simp only [Nat.shiftRight_eq_div_pow, Nat.shiftLeft_eq, pow_one]
        omega
      rw [hround]
      exact Nat.mod_eq_of_lt hfit
    · simp only [h2, if_false] at hfit ⊢
      simp only [Nat.add_zero, Nat.shiftRight_zero, Nat.shiftLeft_zero]
      exact Nat.mod_eq_of_lt hfit
  have hR : cfg.adc_pin_count ≤ (if cfg.adc_dev_master = ADC2
      then cfg.adc_pin_count + cfg.adc_pin_count % 2 else cfg.adc_pin_count) := by
    split_ifs <;> omega
  refine ⟨{ block with max_samples := max_samples_plan ADC2 K cfg,
                       magic := PIOS_INTERNAL_ADC_DEV_MAGIC }, ?_, ?_, ?_, ?_, ?_⟩
  · simp [PIOS_INTERNAL_ADC_Allocate]
  · simp [PIOS_INTERNAL_ADC_validate]
  · exact hplan
  · show K * cfg.adc_pin_count ≤ max_samples_plan ADC2 K cfg * cfg.adc_pin_count
    rw [hplan]
    apply Nat.mul_le_mul_right
    calc K = 1 * K * 1 := by ring
      _ ≤ _ * K * 2 := Nat.mul_le_mul (Nat.mul_le_mul_right K (le_trans hC hR)) (by norm_num)
  · show (max_samples_plan ADC2 K cfg * cfg.adc_pin_count) % 2 = 0
    rw [hplan, Nat.mul_right_comm, Nat.mul_mod_left]

theorem C10_buffer_plan_witness :
    1 ≤ cfg3.adc_pin_count
      ∧ (if cfg3.adc_dev_master = 0x40012100 then cfg3.adc_pin_count + cfg3.adc_pin_count % 2
          else cfg3.adc_pin_count) * 2 * 2 < 2 ^ 16
      ∧ PIOS_INTERNAL_ADC_Allocate 0x40012100 2 cfg3 (some dev_stale) true true true
          = some { dev_stale with max_samples := 16, magic := PIOS_INTERNAL_ADC_DEV_MAGIC }
      ∧ ∃ dev : pios_internal_adc_dev,
          PIOS_INTERNAL_ADC_Allocate 0x40012100 2 cfg3 (some dev_stale) true true true = some dev
            ∧ PIOS_INTERNAL_ADC_validate (some dev) = true
            ∧ dev.max_samples
                = (if cfg3.adc_dev_master = 0x40012100
                    then cfg3.adc_pin_count + cfg3.adc_pin_count % 2
                    else cfg3.adc_pin_count) * 2 * 2
            ∧ 2 * cfg3.adc_pin_count ≤ dev.max_samples * cfg3.adc_pin_count
            ∧ (dev.max_samples * cfg3.adc_pin_count) % 2 = 0 :=
  ⟨by decide, by decide, by decide,
    C10_buffer_plan 0x40012100 2 cfg3 dev_stale (by decide) (by decide)⟩

/-! ## Claims about the rescale -/

theorem halving_even_count (s m : Nat) (hm : 1 ≤ m) :
    ((s / 2 : Nat) : ℚ) / (m : ℚ) - (s : ℚ) / ((2 * m : Nat) : ℚ)
      = - ((s % 2 : Nat) : ℚ) / (2 * (m : ℚ)) := by
  have hs : (s : ℚ) = 2 * ((s / 2 : Nat) : ℚ) + ((s % 2 : Nat) : ℚ) := by
    exact_mod_cast (Nat.div_add_mod s 2).symm
  have hm0 : (m : ℚ) ≠ 0 := by
    have : (1 : ℚ) ≤ (m : ℚ) := by exact_mod_cast hm
    linarith
  rw [hs]
  push_cast
  field_simp
  ring

theorem halving_odd_count (s m : Nat) (hm : 1 ≤ m) :
    ((s / 2 : Nat) : ℚ) / (m : ℚ) - (s : ℚ) / ((2 * m + 1 : Nat) : ℚ)
      = ((s : ℚ) / ((2 * m + 1 : Nat) : ℚ) - ((s % 2 : Nat) : ℚ)) / (2 * (m : ℚ)) := by
  have hs : (s : ℚ) = 2 * ((s / 2 : Nat) : ℚ) + ((s % 2 : Nat) : ℚ) := by
    exact_mod_cast (Nat.div_add_mod s 2).symm
  have hm0 : (m : ℚ) ≠ 0 := by
    have : (1 : ℚ) ≤ (m : ℚ) := by exact_mod_cast hm
    linarith
  have hc0 : (2 * (m : ℚ) + 1) ≠ 0 := by
    have : (0 : ℚ) ≤ (m : ℚ) := by exact_mod_cast Nat.zero_le m
    linarith
  generalize ((s / 2 : Nat) : ℚ) = q at hs ⊢
  generalize ((s % 2 : Nat) : ℚ) = r at hs ⊢
  rw [hs]
  push_cast
  field_simp
  ring

theorem halving_drift (s c : Nat) (hc : 2 ≤ c) :
    |average { accumulator := s / 2, count := c / 2 } - average { accumulator := s, count := c }|
        ≤ max 1 (average { accumulator := s, count := c }) / (2 * ((c / 2 : Nat) : ℚ))
      ∧ (c % 2 = 0 →
          |average { accumulator := s / 2, count := c / 2 }
              - average { accumulator := s, count := c }| ≤ 1 / ((c / 2 : Nat) : ℚ))
      ∧ (c % 2 = 1 →
          average { accumulator := s / 2, count := c / 2 }
              - average { accumulator := s, count := c }
            = (average { accumulator := s, count := c } - ((s % 2 : Nat) : ℚ))
                / (2 * ((c / 2 : Nat) : ℚ))) := by
  simp only [average]
  have hm : 1 ≤ c / 2 := by omega
  have hmq : (1 : ℚ) ≤ ((c / 2 : Nat) : ℚ) := by exact_mod_cast hm
  have h2m : (0 : ℚ) < 2 * ((c / 2 : Nat) : ℚ) := by linarith
  have hr0 : (0 : ℚ) ≤ ((s % 2 : Nat) : ℚ) := by exact_mod_cast Nat.zero_le _
  have hr1 : ((s % 2 : Nat) : ℚ) ≤ 1 := by
    have : s % 2 ≤ 1 := by omega
    exact_mod_cast this
  have hB : (0 : ℚ) ≤ (s : ℚ) / (c : ℚ) :=
    div_nonneg (by exact_mod_cast Nat.zero_le _) (by exact_mod_cast Nat.zero_le _)
  have hmax1 : (1 : ℚ) ≤ max 1 ((s : ℚ) / (c : ℚ)) := le_max_left _ _
  have hmaxB : (s : ℚ) / (c : ℚ) ≤ max 1 ((s : ℚ) / (c : ℚ)) := le_max_right _ _
  rcases Nat.mod_two_eq_zero_or_one c with hpar | hpar
  · have hceq : c = 2 * (c / 2) := by omega
    have hdiff : ((s / 2 : Nat) : ℚ) / ((c / 2 : Nat) : ℚ) - (s : ℚ) / (c : ℚ)
        = - ((s % 2 : Nat) : ℚ) / (2 * ((c / 2 : Nat) : ℚ)) := by
      have h := halving_even_count s (c / 2) hm
      rw [← hceq] at h
      exact h
    have habs : |((s / 2 : Nat) : ℚ) / ((c / 2 : Nat) : ℚ) - (s : ℚ) / (c : ℚ)|
        = ((s % 2 : Nat) : ℚ) / (2 * ((c / 2 : Nat) : ℚ)) := by
      rw [hdiff, neg_div, abs_neg, abs_of_nonneg (div_nonneg hr0 h2m.le)]
    refine ⟨?_, ?_, ?_⟩
    · rw [habs]
      exact div_le_div_of_nonneg_right (le_trans hr1 hmax1) h2m.le
    · intro _
      rw [habs]
      calc ((s % 2 : Nat) : ℚ) / (2 * ((c / 2 : Nat) : ℚ))
          ≤ 1 / (2 * ((c / 2 : Nat) : ℚ)) := div_le_div_of_nonneg_right hr1 h2m.le
        _ ≤ 1 / ((c / 2 : Nat) : ℚ) :=
          one_div_le_one_div_of_le (by linarith) (by linarith)
    · intro h1
      omega
  · have hceq : c = 2 * (c / 2) + 1 := by omega
    have hdiff : ((s / 2 : Nat) : ℚ) / ((c / 2 : Nat) : ℚ) - (s : ℚ) / (c : ℚ)
        = ((s : ℚ) / (c : ℚ) - ((s % 2 : Nat) : ℚ)) / (2 * ((c / 2 : Nat) : ℚ)) := by
      have h := halving_odd_count s (c / 2) hm
      rw [← hceq] at h
      exact h
    refine ⟨?_, ?_, ?_⟩
    · rw [hdiff, abs_div, abs_of_pos h2m]
      apply div_le_div_of_nonneg_right _ h2m.le
      rw [abs_le]
      constructor <;> linarith
    · intro h0
      omega
    · intro _
      exact hdiff

/-- C9, as the code has it.  When `accumulate` rescales a channel, that is when the sum `s`
after the addition satisfies `2 ^ 31 <= s` (and `s < 2 ^ 32`) while the count `c` after
the increment is at least 2, the record becomes `(s / 2, c / 2)` and its exact average
differs from the average `s / c` before the rescale by at most
`max 1 (s / c) / (2 * (c / 2))`.  For an even count that is within `1 / (c / 2)`; for an odd
count the halved count is rounded down and the average moves by exactly
`(s / c - s % 2) / (2 * (c / 2))`. -/
theorem C9_rescale_drift (a : adc_accumulator) (x : Nat)
    (hs : 2 ^ 31 ≤ (a.accumulator + x) % 2 ^ 32)
    (hc : 2 ≤ (a.count + 1) % 2 ^ 32) :
    accumulate_sample a x
        = { accumulator := (a.accumulator + x) % 2 ^ 32 / 2,
            count := (a.count + 1) % 2 ^ 32 / 2 }
      ∧ (a.accumulator + x) % 2 ^ 32 < 2 ^ 32
      ∧ |average (accumulate_sample a x)
            - average { accumulator := (a.accumulator + x) % 2 ^ 32,
                        count := (a.count + 1) % 2 ^ 32 }|
          ≤ max 1 (average { accumulator := (a.accumulator + x) % 2 ^ 32,
                             count := (a.count + 1) % 2 ^ 32 })
              / (2 * (((a.count + 1) % 2 ^ 32 / 2 : Nat) : ℚ))
      ∧ ((a.count + 1) % 2 ^ 32 % 2 = 0 →
          |average (accumulate_sample a x)
              - average { accumulator := (a.accumulator + x) % 2 ^ 32,
                          count := (a.count + 1) % 2 ^ 32 }|
            ≤ 1 / (((a.count + 1) % 2 ^ 32 / 2 : Nat) : ℚ))
      ∧ ((a.count + 1) % 2 ^ 32 % 2 = 1 →
          average (accumulate_sample a x)
              - average { accumulator := (a.accumulator + x) % 2 ^ 32,
                          count := (a.count + 1) % 2 ^ 32 }
            = (average { accumulator := (a.accumulator + x) % 2 ^ 32,
                         count := (a.count + 1) % 2 ^ 32 }
                - (((a.accumulator + x) % 2 ^ 32 % 2 : Nat) : ℚ))
              / (2 * (((a.count + 1) % 2 ^ 32 / 2 : Nat) : ℚ))) := by
  have hres := accumulate_sample_rescale a x hs
  have hd := halving_drift ((a.accumulator + x) % 2 ^ 32) ((a.count + 1) % 2 ^ 32) hc
  rw [hres]
  exact ⟨rfl, Nat.mod_lt _ (by norm_num), hd.1, hd.2.1, hd.2.2⟩

theorem C9_rescale_drift_witness :
    2 ^ 31 ≤ (2147450880 + 65535) % 2 ^ 32 ∧ 2 ≤ (32768 + 1) % 2 ^ 32
      ∧ accumulate_sample { accumulator := 2147450880, count := 32768 } 65535
          = { accumulator := 1073758207, count := 16384 }
      ∧ |average (accumulate_sample { accumulator := 2147450880, count := 32768 } 65535)
            - average { accumulator := (2147450880 + 65535) % 2 ^ 32,
                        count := (32768 + 1) % 2 ^ 32 }|
          ≤ max 1 (average { accumulator := (2147450880 + 65535) % 2 ^ 32,
                             count := (32768 + 1) % 2 ^ 32 })
              / (2 * (((32768 + 1) % 2 ^ 32 / 2 : Nat) : ℚ)) :=
  have h := C9_rescale_drift { accumulator := 2147450880, count := 32768 } 65535
    (by decide) (by decide)
  ⟨by decide, by decide, h.1, h.2.2.1⟩

theorem channel_samples_const (C v count i : Nat) :
    channel_samples C (fun _ => v) count i = List.replicate count (v % 2 ^ 16) := by
  induction count with
  | zero => rfl
  | succ n ih => rw [channel_samples_succ, ih, List.replicate_succ']

theorem full_scale_before_rescale :
    (accumulate st1 buffer_full_scale 32768).accumulator 0
      = { accumulator := 2147450880, count := 32768 } := by
  have hv : PIOS_INTERNAL_ADC_validate (some dev1) = true := by decide
  have hi : 0 < dev1.cfg.adc_pin_count := by decide
  rw [accumulate_valid_channel st1 dev1 buffer_full_scale 32768 0 rfl hv hi]
  have hsamples : channel_samples dev1.cfg.adc_pin_count buffer_full_scale 32768 0
      = List.replicate 32768 65535 := channel_samples_const _ 65535 32768 0
  rw [hsamples]
  have hsum : (List.replicate 32768 65535).sum = 2147450880 := by
    rw [List.sum_replicate, smul_eq_mul]
  have hzero : st1.accumulator 0 = { accumulator := 0, count := 0 } := rfl
  rw [hzero, foldl_accumulate_sample_exact _ _ (by norm_num) (by rw [hsum]; norm_num), hsum,
    List.length_replicate]
  norm_num

theorem accumulate_succ_channel (st : adc_state) (dev : pios_internal_adc_dev)
    (buffer : Nat → Nat) (n i : Nat)
    (hdev : st.pios_adc_dev = some dev) (hv : PIOS_INTERNAL_ADC_validate (some dev) = true)
    (hi : i < dev.cfg.adc_pin_count) :
    (accumulate st buffer (n + 1)).accumulator i
      = accumulate_sample ((accumulate st buffer n).accumulator i)
          (buffer (n * dev.cfg.adc_pin_count + i) % 2 ^ 16) := by
  rw [accumulate_valid_channel st dev buffer (n + 1) i hdev hv hi,
    accumulate_valid_channel st dev buffer n i hdev hv hi, channel_samples_succ,
    List.foldl_append]
  simp only [List.foldl_cons, List.foldl_nil]

/-- C9 as stated fails on its own stream: feeding the constant sample 65535 to the single
channel of `dev1` from a zero accumulator, the first rescale happens at the 32769th sample,
when the sum is `2147516415 >= 2 ^ 31` and the count `32769` is odd; the record becomes
`(1073758207, 16384)`, and its average (about 65536.99994) differs from the average 65535
before the rescale by more than `1 / 16384`. -/
theorem C9_full_scale_stream_drifts :
    (accumulate st1 buffer_full_scale 32768).accumulator 0
        = { accumulator := 2147450880, count := 32768 }
      ∧ (2147450880 + 65535) % 2 ^ 32 = 2147516415
      ∧ (32768 + 1) % 2 ^ 32 = 32769
      ∧ 2 ^ 31 ≤ 2147516415 ∧ 2147516415 < 2 ^ 32 ∧ 2 ≤ 32769
      ∧ (accumulate st1 buffer_full_scale (32768 + 1)).accumulator 0
        = { accumulator := 2147516415 / 2, count := 32769 / 2 }
      ∧ ¬ (|average { accumulator := 2147516415 / 2, count := 32769 / 2 }
            - average { accumulator := 2147516415, count := 32769 }|
          ≤ 1 / ((32769 / 2 : Nat) : ℚ)) := by
  refine ⟨full_scale_before_rescale, by decide, by decide, by decide, by decide, by decide,
    ?_, ?_⟩
  · rw [accumulate_succ_channel st1 dev1 buffer_full_scale 32768 0 rfl (by decide) (by decide),
      full_scale_before_rescale]
    decide
  · simp only [average]
    norm_num [abs_le]

end PiosInternalAdc
